import Mathlib

/-!
Verification of the datavzrd table analysis and pagination engine
(src/render/portable.rs and src/render/portable/utils.rs) against its
natural-language specification.

The Rust source is shallowly embedded:

* f32 values are modelled by the type F below: an exact rational payload
  extended with NaN and the two infinities, with the IEEE special-value
  propagation rules of the operations the source uses (min, max, sub, div,
  mul, add, trunc, saturating cast to usize).  Rounding of finite f32
  arithmetic is abstracted to exact rational arithmetic; all concrete
  inputs used in theorems below are small integers on which f32 arithmetic
  is exact.
* A csv::Reader is a stream: calling records() yields everything from the
  current position and leaves the reader at end of file.  The source never
  seeks or reopens the reader inside generate_numeric_plot, so the second
  and third records() calls there observe an already-exhausted stream;
  the embedding keeps the reader state explicit to capture exactly this.
* A cell of a column is abstracted to its f32 parse result
  (Option of a rational: none models a string that f32::from_str rejects,
  for example the empty string).
* A Rust panic (unwrap on a parse failure, slice index out of bounds) is
  modelled by the value none of the surrounding Option computation.
  u32 counter overflow is abstracted away (counts are natural numbers).
-/

namespace Datavzrd

/-- Model of Rust f32 for the operations used by the source: an exact
rational payload extended with NaN and both infinities.  The sign of zero
is not modelled. -/
inductive F where
  | nan : F
  | inf : F
  | neginf : F
  | fin : ℚ → F
deriving DecidableEq, Repr

namespace F

/-- Rust f32::min: if one operand is NaN the other is returned, otherwise
the smaller operand. -/
def fmin : F → F → F
  | nan, b => b
  | a, nan => a
  | neginf, _ => neginf
  | _, neginf => neginf
  | inf, b => b
  | a, inf => a
  | fin a, fin b => fin (min a b)

/-- Rust f32::max: if one operand is NaN the other is returned, otherwise
the larger operand. -/
def fmax : F → F → F
  | nan, b => b
  | a, nan => a
  | inf, _ => inf
  | _, inf => inf
  | neginf, b => b
  | a, neginf => a
  | fin a, fin b => fin (max a b)

/-- IEEE subtraction on the extended rationals. -/
def sub : F → F → F
  | nan, _ => nan
  | _, nan => nan
  | inf, inf => nan
  | inf, _ => inf
  | neginf, neginf => nan
  | neginf, _ => neginf
  | fin _, inf => neginf
  | fin _, neginf => inf
  | fin a, fin b => fin (a - b)

/-- IEEE addition on the extended rationals. -/
def add : F → F → F
  | nan, _ => nan
  | _, nan => nan
  | inf, neginf => nan
  | neginf, inf => nan
  | inf, _ => inf
  | _, inf => inf
  | neginf, _ => neginf
  | _, neginf => neginf
  | fin a, fin b => fin (a + b)

/-- IEEE multiplication on the extended rationals. -/
def mul : F → F → F
  | nan, _ => nan
  | _, nan => nan
  | inf, inf => inf
  | inf, neginf => neginf
  | neginf, inf => neginf
  | neginf, neginf => inf
  | inf, fin b => if b = 0 then nan else if b < 0 then neginf else inf
  | fin a, inf => if a = 0 then nan else if a < 0 then neginf else inf
  | neginf, fin b => if b = 0 then nan else if b < 0 then inf else neginf
  | fin a, neginf => if a = 0 then nan else if a < 0 then inf else neginf
  | fin a, fin b => fin (a * b)

/-- IEEE division on the extended rationals (sign of zero not modelled). -/
def div : F → F → F
  | nan, _ => nan
  | _, nan => nan
  | inf, inf => nan
  | inf, neginf => nan
  | neginf, inf => nan
  | neginf, neginf => nan
  | inf, fin b => if b < 0 then neginf else inf
  | neginf, fin b => if b < 0 then inf else neginf
  | fin _, inf => fin 0
  | fin _, neginf => fin 0
  | fin a, fin b =>
      if b = 0 then (if a = 0 then nan else if 0 < a then inf else neginf)
      else fin (a / b)

/-- Rust f32::trunc: rounding toward zero; NaN and infinities unchanged. -/
def trunc : F → F
  | nan => nan
  | inf => inf
  | neginf => neginf
  | fin a => if a < 0 then fin ⌈a⌉ else fin ⌊a⌋

/-- Largest value of the target type of the saturating float-to-usize cast. -/
def USIZE_MAX : ℕ := 2 ^ 64 - 1

/-- Rust float-to-usize cast (as usize): saturating; NaN and negative
values go to 0, positive infinity to the maximal usize. -/
def toUsize : F → ℕ
  | nan => 0
  | neginf => 0
  | inf => USIZE_MAX
  | fin a => if a < 0 then 0 else min USIZE_MAX ⌊a⌋.toNat

end F

/-- Number of histogram buckets (NUMERIC_BINS in the source). -/
def NUMERIC_BINS : ℕ := 20

/-- Cardinality cap of the nominal summarizer (MAX_NOMINAL_BINS). -/
def MAX_NOMINAL_BINS : ℕ := 10

/-- One output record of the numeric summarizer (BinnedPlotRecord). -/
structure BinnedPlotRecord where
  bin_start : F
  bin_end : F
  value : ℕ
deriving DecidableEq, Repr

/-- One output record of the nominal summarizer (PlotRecord). -/
structure PlotRecord where
  key : String
  value : ℕ
deriving DecidableEq, Repr

/-- State of a csv::Reader positioned inside the data rows: the list of
rows not yet consumed.  The reader streams; it is never rewound unless the
source explicitly seeks or reopens it. -/
structure CsvReader (α : Type) where
  remaining : List α

/-- Model of csv::Reader::records(): yields every row from the current
position onward and leaves the reader at end of file. -/
def CsvReader.records (r : CsvReader α) : List α × CsvReader α :=
  (r.remaining, ⟨[]⟩)

/-- The bucket index computed by the loop body of generate_numeric_plot:
((number - min) / step).trunc() as usize.  No clamping is applied by the
source. -/
def bucketIdx (mn step : F) (q : ℚ) : ℕ :=
  F.toUsize (F.trunc (F.div (F.sub (F.fin q) mn) step))

/-- One iteration of the bucketing loop (lines 133-141 of portable.rs):
a parse failure increments the nan counter, a parsed value increments
bins[bucketIdx]; an out-of-range index is the panic of the slice indexing,
modelled as none. -/
def bucketStep (mn step : F) (acc : List ℕ × ℕ) (cell : Option ℚ) :
    Option (List ℕ × ℕ) :=
  match cell with
  | none => some (acc.1, acc.2 + 1)
  | some q =>
      let idx := bucketIdx mn step q
      if h : idx < acc.1.length then
        some (acc.1.set idx (acc.1.get ⟨idx, h⟩ + 1), acc.2)
      else none

/-- The iterator of the min and max passes: each cell is parsed and the
parse result unwrapped, so the whole pass panics (none) as soon as one
cell fails to parse. -/
def unwrapAll : List (Option ℚ) → Option (List ℚ)
  | [] => some []
  | none :: _ => none
  | some q :: rest => (unwrapAll rest).map fun l => q :: l

/-- The values generate_numeric_plot computes before emitting records. -/
structure NPlotState where
  mn : F
  mx : F
  step : F
  bins : List ℕ
  nanc : ℕ
deriving DecidableEq, Repr

/-- The three passes of generate_numeric_plot (lines 116-141): the min
fold, the max fold and the bucketing loop, each obtained from records()
of the single reader opened at line 116; the reader state is threaded so
that each pass consumes the stream.  The unwrap of a parse failure in the
min and max passes is the none case of mapM. -/
def nplotPasses (col : List (Option ℚ)) : Option NPlotState :=
  let reader : CsvReader (Option ℚ) := ⟨col⟩
  let pass1 := reader.records
  match unwrapAll pass1.1 with
  | none => none
  | some vals1 =>
      let mn := vals1.foldl (fun a b => F.fmin a (F.fin b)) F.inf
      let pass2 := pass1.2.records
      match unwrapAll pass2.1 with
      | none => none
      | some vals2 =>
          let mx := vals2.foldl (fun a b => F.fmax a (F.fin b)) F.neginf
          let step := F.div (F.sub mx mn) (F.fin (NUMERIC_BINS : ℚ))
          let pass3 := pass2.2.records
          match pass3.1.foldlM (bucketStep mn step)
              (List.replicate NUMERIC_BINS 0, 0) with
          | none => none
          | some acc => some ⟨mn, mx, step, acc.1, acc.2⟩

/-- The emission loop of generate_numeric_plot (lines 143-158): one record
per bucket, in bucket order, then the NaN sentinel record exactly when the
nan counter is positive. -/
def nplotEmit (mn step : F) (bins : List ℕ) (nanc : ℕ) :
    List BinnedPlotRecord :=
  let result := bins.enum.map fun p =>
    { bin_start := F.add mn (F.mul (F.fin (p.1 : ℚ)) step)
      bin_end := F.add mn (F.mul (F.fin ((p.1 : ℚ) + 1)) step)
      value := p.2 }
  if 0 < nanc then
    result ++ [{ bin_start := F.nan, bin_end := F.nan, value := nanc }]
  else result

/-- generate_numeric_plot (lines 111-160): the three passes followed by
record emission; none models a panic inside the function. -/
def generate_numeric_plot (col : List (Option ℚ)) :
    Option (List BinnedPlotRecord) :=
  (nplotPasses col).map fun s => nplotEmit s.mn s.step s.bins s.nanc

/-- The counting loop of generate_nominal_plot (lines 173-180): empty
cells are skipped, every other cell bumps its entry in the count map.
HashMap iteration order is unspecified in the source; the model keeps
entries in first-seen order, which is one admissible order, and every
property proved below is insensitive to the order of the map. -/
def bumpEntry (acc : List (String × ℕ)) (v : String) : List (String × ℕ) :=
  if acc.any fun p => p.1 = v then
    acc.map fun p => if p.1 = v then (p.1, p.2 + 1) else p
  else acc ++ [(v, 1)]

/-- Count of each distinct non-empty value of the column, one entry per
distinct value. -/
def countValues (cells : List String) : List (String × ℕ) :=
  cells.foldl (fun acc value => if value.isEmpty then acc else bumpEntry acc value) []

/-- The comparator passed to sort_by at line 195: record a precedes
record b when b.value <= a.value, which sorts by descending count. -/
def recGE (a b : PlotRecord) : Prop := b.value ≤ a.value

instance : DecidableRel recGE := fun a b => Nat.decLe b.value a.value

instance : IsTotal PlotRecord recGE :=
  ⟨fun a b => (Nat.le_total b.value a.value).imp id id⟩

instance : IsTrans PlotRecord recGE :=
  ⟨fun _ _ _ h1 h2 => Nat.le_trans h2 h1⟩

/-- generate_nominal_plot (lines 162-200): count distinct non-empty
values; with at most MAX_NOMINAL_BINS distinct values return them all;
otherwise return none when all counts coincide (at most one distinct
count value), else sort by descending count and keep the first
MAX_NOMINAL_BINS records.  none models Ok(None) of the source; I/O errors
of the reader are abstracted away. -/
def generate_nominal_plot (cells : List String) : Option (List PlotRecord) :=
  let count_values := countValues cells
  let plot_data : List PlotRecord := count_values.map fun p => ⟨p.1, p.2⟩
  if MAX_NOMINAL_BINS < plot_data.length then
    let unique_values := (count_values.map Prod.snd).dedup.length
    if unique_values ≤ 1 then none
    else some ((List.insertionSort recGE plot_data).take MAX_NOMINAL_BINS)
  else some plot_data

/-- Modelled from the spec: RowAddressFactory lives in
crate::utils::row_address, which is not part of the source under review;
spec section 4.1 defines the page of row ordinal i as the floor division
i / page_size. -/
def rowPage (page_size i : ℕ) : ℕ := i / page_size

/-- Model of the itertools group_by adaptor used at line 39: consecutive
elements with the same key are collected into one group, and the groups
appear in stream order, each tagged with its key. -/
def groupByKey (f : α → ℕ) : List α → List (ℕ × List α)
  | [] => []
  | x :: xs =>
      (f x, x :: xs.takeWhile fun y => f y = f x) ::
        groupByKey f (xs.dropWhile fun y => f y = f x)
termination_by l => l.length
decreasing_by
  simp only [List.length_cons]
  exact Nat.lt_succ_of_le (List.dropWhile_sublist _).length_le

/-- The page grouping performed by render_tables (lines 35-50): the
enumerated row stream is grouped by the page of the row ordinal, and each
group (page index together with its rows in order) is handed to the
external page renderer. -/
def render_tables_pages (page_size : ℕ) (rows : List α) :
    List (ℕ × List (ℕ × α)) :=
  groupByKey (fun p => rowPage page_size p.1) rows.enum

/-- Number of pages of R rows under a given page size, ceil(R / ps). -/
def numPages (R ps : ℕ) : ℕ := (R + ps - 1) / ps

/-- Recursive characterization of the page grouping: page k holds the
enumerated first ps rows, the remaining rows are paged from index k+1.
The equation for a nonempty list drops ps - 1 elements of the tail, which
agrees with dropping ps elements of the whole list whenever ps is
positive. -/
def chunkPages (ps : ℕ) : ℕ → List α → List (ℕ × List (ℕ × α))
  | _, [] => []
  | k, x :: xs =>
      (k, List.enumFrom (k * ps) ((x :: xs).take ps)) ::
        chunkPages ps (k + 1) (xs.drop (ps - 1))
termination_by _ l => l.length
decreasing_by
  simp only [List.length_cons]
  exact Nat.lt_succ_of_le (List.drop_sublist _ _).length_le

/-- A filesystem path, as the list of its components. -/
abbrev FsPath := List String

/-- Model of std::fs::create_dir: the call fails when the directory
already exists, otherwise the directory is added to the filesystem.
Other I/O failure modes (permissions, missing parent) are abstracted
away; only the already-exists failure is relevant to the claims. -/
def createDir (fs : List FsPath) (p : FsPath) : Except Unit (List FsPath) :=
  if p ∈ fs then Except.error () else Except.ok (p :: fs)

/-- The directory creations render_plots performs for one table
(line 76-77 of portable.rs): the plots subdirectory of the table
directory, created exclusively. -/
def render_plots_dirs (fs : List FsPath) (out_path : FsPath) :
    Except Unit (List FsPath) :=
  createDir fs (out_path ++ ["plots"])

/-- The directory creations render_tables performs for one table
(lines 52-55 of portable.rs): the table directory under the render root,
created exclusively, then the plots subdirectory via render_plots. -/
def render_table_dirs (fs : List FsPath) (root : FsPath) (name : String) :
    Except Unit (List FsPath) :=
  match createDir fs (root ++ [name]) with
  | Except.error e => Except.error e
  | Except.ok fs2 => render_plots_dirs fs2 (root ++ [name])

/-- Declared properties of one table (spec section 3); the fields are not
inspected by render_index_file. -/
structure TableSpec where
  path : String
  separator : Char
  page_size : ℕ

/-- Ordered mapping from table name to its spec; insertion order is
significant, the first entry being the landing table of the index page. -/
structure TablesSpec where
  tables : List (String × TableSpec)

/-- Modelled from the spec: the text of templates/index.html.tera is not
part of the source under review; the rendered index page is abstracted as
an opaque function of the table name inserted into the template context,
so that which table the page references stays observable. -/
def indexTemplate (table : String) : String :=
  String.append "index.html referencing table " table

/-- render_index_file (utils.rs lines 57-71): the first table name of the
ordered spec is taken with unwrap, which panics (modelled as none) when
the spec holds no tables; otherwise the index page referencing that first
table is rendered. -/
def render_index_file (specs : TablesSpec) : Option String :=
  match (specs.tables.map Prod.fst).head? with
  | none => none
  | some table => some (indexTemplate table)

/-- Helper: with a zero nan counter the emission is exactly the per-bucket
records, so mapping the count projection over it returns the bucket
counts. -/
theorem nplotEmit_map_value (mn step : F) (bins : List ℕ) :
    (nplotEmit mn step bins 0).map BinnedPlotRecord.value = bins := by
  unfold nplotEmit
  simp only [lt_self_iff_false, if_false, List.map_map]
  have h : (BinnedPlotRecord.value ∘ fun p : ℕ × ℕ =>
      ({ bin_start := F.add mn (F.mul (F.fin (p.1 : ℚ)) step),
         bin_end := F.add mn (F.mul (F.fin ((p.1 : ℚ) + 1)) step),
         value := p.2 } : BinnedPlotRecord)) = Prod.snd := by
    funext p
    rfl
  rw [h, List.enum_map_snd]

/-- Helper: whatever the column, the second and third records() calls of
generate_numeric_plot read an exhausted stream, so every successful run
has computed max equal to negative infinity, all bucket counts zero and a
zero nan counter. -/
theorem nplotPasses_some (col : List (Option ℚ)) (s : NPlotState)
    (h : nplotPasses col = some s) :
    s.mx = F.neginf ∧ s.bins = List.replicate NUMERIC_BINS 0 ∧ s.nanc = 0 := by
  unfold nplotPasses CsvReader.records at h
  cases hu : unwrapAll col with
  | none => simp [hu] at h
  | some vals1 =>
      simp only [hu, unwrapAll, List.foldlM] at h
      cases h
      exact ⟨rfl, rfl, rfl⟩

/-- C1: the claim says the computed min and max are the true extrema of
the parseable values and that the bucketing pass observes every data row.
On the column with values 0 and 2 the run computes max = negative
infinity (the second records() call reads an exhausted stream), not the
true maximum 2, and the bucketing pass observes no row (all bucket
counts stay 0 and the nan counter stays 0). -/
theorem numeric_minmax_exhausted_reader :
    nplotPasses [some 0, some 2] =
      some ⟨F.fin 0, F.neginf, F.neginf, List.replicate NUMERIC_BINS 0, 0⟩ ∧
    F.neginf ≠ F.fin 2 := by
  constructor
  · norm_num [nplotPasses, CsvReader.records, NUMERIC_BINS, unwrapAll,
      F.fmin, F.div, F.sub]
  · simp

/-- C2: the claim says bucket counts plus the sentinel count sum to the
number of data rows.  On a two-row column the run emits no sentinel and
every bucket count is 0, so the sum is 0, not 2. -/
theorem numeric_total_zero :
    (((generate_numeric_plot [some 1, some 2]).getD []).map
        BinnedPlotRecord.value).sum = 0 ∧
    [some (1 : ℚ), some 2].length = 2 := by
  constructor
  · have h : nplotPasses [some 1, some 2] =
        some ⟨F.fin 1, F.neginf, F.neginf, List.replicate NUMERIC_BINS 0, 0⟩ := by
      norm_num [nplotPasses, CsvReader.records, NUMERIC_BINS, unwrapAll,
        F.fmin, F.div, F.sub]
    rw [generate_numeric_plot, h]
    simp [nplotEmit_map_value, List.sum_replicate]
  · rfl

/-- C3: the claim says the bucket index is clamped to [0, B-1] and that a
value equal to max lands in bucket B-1.  The loop body of the source is
unclamped: with min 0, max 1 and the step the source would compute from
them, the index at the value 1 (equal to max) is 20, outside the bucket
range; and in the actual run on the column with values 0 and 1 every
bucket count, bucket 19 included, is 0. -/
theorem numeric_bucket_index_unclamped :
    bucketIdx (F.fin 0) (F.div (F.sub (F.fin 1) (F.fin 0)) (F.fin 20)) 1 = 20 ∧
    ¬ (20 < NUMERIC_BINS) ∧
    ((generate_numeric_plot [some 0, some 1]).getD []).map
      BinnedPlotRecord.value = List.replicate NUMERIC_BINS 0 := by
  refine ⟨?_, by norm_num [NUMERIC_BINS], ?_⟩
  · norm_num [bucketIdx, F.div, F.sub, F.trunc, F.toUsize, F.USIZE_MAX]
    rfl
  · have h : nplotPasses [some 0, some 1] =
        some ⟨F.fin 0, F.neginf, F.neginf, List.replicate NUMERIC_BINS 0, 0⟩ := by
      norm_num [nplotPasses, CsvReader.records, NUMERIC_BINS, unwrapAll,
        F.fmin, F.div, F.sub]
    rw [generate_numeric_plot, h]
    simp [nplotEmit_map_value]

/-- C4: the claim says a constant column is summarized without failure
and with every parseable value counted in bucket 0.  On the constant
column [5, 5] the run does succeed, but the bucketing pass observes no
row (exhausted stream), so bucket 0 holds 0 values, not 2; the computed
step is negative infinity, not 0. -/
theorem numeric_constant_column_zero_counts :
    (generate_numeric_plot [some 5, some 5]).isSome = true ∧
    ((generate_numeric_plot [some 5, some 5]).getD []).map
      BinnedPlotRecord.value = List.replicate NUMERIC_BINS 0 := by
  have h : nplotPasses [some 5, some 5] =
      some ⟨F.fin 5, F.neginf, F.neginf, List.replicate NUMERIC_BINS 0, 0⟩ := by
    norm_num [nplotPasses, CsvReader.records, NUMERIC_BINS, unwrapAll,
      F.fmin, F.div, F.sub]
  constructor
  · rw [generate_numeric_plot, h]
    rfl
  · rw [generate_numeric_plot, h]
    simp [nplotEmit_map_value]

/-- C5: the claim says an unparsable value in a numeric column is not an
error and is counted by the nan counter.  The min pass of the source
unwraps every parse result, so the first unparsable cell (here the middle
cell, for example an empty string) panics before any counting happens. -/
theorem numeric_unparsable_panics :
    generate_numeric_plot [some 1, none, some 2] = none := by
  simp [generate_numeric_plot, nplotPasses, CsvReader.records, unwrapAll]

/-- C6: every successful run of generate_numeric_plot emits exactly the
NUMERIC_BINS per-bucket records in increasing bucket order, the record of
bucket i carrying bin_start = min + i * step, bin_end = min + (i+1) * step
and the bucket count, followed by the single NaN sentinel record exactly
when the nan counter of the run is positive. -/
theorem numeric_plot_emission (col : List (Option ℚ)) (s : NPlotState)
    (h : nplotPasses col = some s) :
    generate_numeric_plot col = some (nplotEmit s.mn s.step s.bins s.nanc) ∧
    (nplotEmit s.mn s.step s.bins s.nanc).length =
      NUMERIC_BINS + (if 0 < s.nanc then 1 else 0) ∧
    (∀ i, i < NUMERIC_BINS →
      (nplotEmit s.mn s.step s.bins s.nanc).get? i =
        some { bin_start := F.add s.mn (F.mul (F.fin (i : ℚ)) s.step),
               bin_end := F.add s.mn (F.mul (F.fin ((i : ℚ) + 1)) s.step),
               value := s.bins.getD i 0 }) ∧
    (0 < s.nanc →
      (nplotEmit s.mn s.step s.bins s.nanc).getLast? =
        some { bin_start := F.nan, bin_end := F.nan, value := s.nanc }) := by
  obtain ⟨hmx, hbins, hnanc⟩ := nplotPasses_some col s h
  refine ⟨?_, ?_, ?_, ?_⟩
  · rw [generate_numeric_plot, h]
    rfl
  · rw [hbins, hnanc]
    simp [nplotEmit]
  · intro i hi
    rw [hbins, hnanc]
    unfold nplotEmit
    simp only [lt_self_iff_false, if_false, List.get?_eq_getElem?,
      List.getElem?_map, List.getElem?_enum, List.getElem?_replicate, hi,
      if_pos, Option.map_some]
    simp [List.getD, List.get?_eq_getElem?, List.getElem?_replicate, hi]
  · intro hpos
    rw [hnanc] at hpos
    exact absurd hpos (lt_irrefl 0)

/-- Witness for C6 at the concrete column with values 1 and 2: the run
succeeds and its output is exactly the emission of the computed state. -/
theorem numeric_plot_emission_witness :
    generate_numeric_plot [some 1, some 2] =
      some (nplotEmit (F.fin 1) F.neginf (List.replicate NUMERIC_BINS 0) 0) :=
  (numeric_plot_emission [some 1, some 2]
    ⟨F.fin 1, F.neginf, F.neginf, List.replicate NUMERIC_BINS 0, 0⟩
    (by norm_num [nplotPasses, CsvReader.records, NUMERIC_BINS, unwrapAll,
      F.fmin, F.div, F.sub])).1

/-- Helper: a list of naturals has at most one distinct element exactly
when all its members coincide. -/
theorem dedup_length_le_one_iff (l : List ℕ) :
    l.dedup.length ≤ 1 ↔ ∀ a ∈ l, ∀ b ∈ l, a = b := by
  constructor
  · intro h a ha b hb
    have ha2 : a ∈ l.dedup := List.mem_dedup.mpr ha
    have hb2 : b ∈ l.dedup := List.mem_dedup.mpr hb
    cases hd : l.dedup with
    | nil =>
        rw [hd] at ha2
        exact absurd ha2 (List.not_mem_nil a)
    | cons x t =>
        cases t with
        | nil =>
            rw [hd] at ha2 hb2
            simp only [List.mem_singleton] at ha2 hb2
            rw [ha2, hb2]
        | cons y t2 =>
            rw [hd] at h
            simp only [List.length_cons] at h
            omega
  · intro h
    cases hd : l.dedup with
    | nil => simp
    | cons x t =>
        cases t with
        | nil => simp
        | cons y t2 =>
            exfalso
            have hx : x ∈ l := List.dedup_subset l (by rw [hd]; simp)
            have hy : y ∈ l := List.dedup_subset l (by rw [hd]; simp)
            have hnd : (x :: y :: t2).Nodup := hd ▸ List.nodup_dedup l
            have hxy : x ≠ y := by
              intro hcon
              rw [hcon] at hnd
              simp at hnd
            exact hxy (h x hx y hy)

/-- C7: the three cases of generate_nominal_plot.  With at most
MAX_NOMINAL_BINS distinct non-empty values the summary holds one record
per distinct value; with more distinct values and all counts equal the
result is none; otherwise the result holds exactly MAX_NOMINAL_BINS
records drawn from the distinct values, sorted by descending count, and
no omitted value has a count above a kept record. -/
theorem nominal_plot_cases (cells : List String) :
    ((countValues cells).length ≤ MAX_NOMINAL_BINS →
      ∃ l, generate_nominal_plot cells = some l ∧
        l.length = (countValues cells).length ∧
        (∀ r : PlotRecord, r ∈ l ↔ (r.key, r.value) ∈ countValues cells)) ∧
    (MAX_NOMINAL_BINS < (countValues cells).length →
      (∀ p ∈ countValues cells, ∀ q ∈ countValues cells, p.2 = q.2) →
      generate_nominal_plot cells = none) ∧
    (MAX_NOMINAL_BINS < (countValues cells).length →
      (∃ p ∈ countValues cells, ∃ q ∈ countValues cells, p.2 ≠ q.2) →
      ∃ l, generate_nominal_plot cells = some l ∧
        l.length = MAX_NOMINAL_BINS ∧
        List.Sorted recGE l ∧
        (∀ r ∈ l, (r.key, r.value) ∈ countValues cells) ∧
        (∀ p ∈ countValues cells, (⟨p.1, p.2⟩ : PlotRecord) ∉ l →
          ∀ r ∈ l, p.2 ≤ r.value)) := by
  refine ⟨?_, ?_, ?_⟩
  · intro hle
    refine ⟨(countValues cells).map fun p => ⟨p.1, p.2⟩, ?_, by simp, ?_⟩
    · unfold generate_nominal_plot
      rw [if_neg]
      simp only [List.length_map]
      omega
    · intro r
      constructor
      · intro hr
        obtain ⟨p, hp, hpr⟩ := List.mem_map.mp hr
        rw [← hpr]
        exact hp
      · intro hr
        have := List.mem_map_of_mem (fun p : String × ℕ => (⟨p.1, p.2⟩ : PlotRecord)) hr
        exact this
  · intro hgt hall
    unfold generate_nominal_plot
    rw [if_pos (by simp only [List.length_map]; omega)]
    rw [if_pos]
    rw [dedup_length_le_one_iff]
    intro a ha b hb
    obtain ⟨p, hp, hpa⟩ := List.mem_map.mp ha
    obtain ⟨q, hq, hqb⟩ := List.mem_map.mp hb
    rw [← hpa, ← hqb]
    exact hall p hp q hq
  · intro hgt hdiff
    have hsort := List.sorted_insertionSort recGE
      ((countValues cells).map fun p => (⟨p.1, p.2⟩ : PlotRecord))
    have hperm := List.perm_insertionSort recGE
      ((countValues cells).map fun p => (⟨p.1, p.2⟩ : PlotRecord))
    have hlen : (List.insertionSort recGE
        ((countValues cells).map fun p => (⟨p.1, p.2⟩ : PlotRecord))).length =
        (countValues cells).length := by
      rw [hperm.length_eq, List.length_map]
    refine ⟨(List.insertionSort recGE
        ((countValues cells).map fun p => (⟨p.1, p.2⟩ : PlotRecord))).take
        MAX_NOMINAL_BINS, ?_, ?_, ?_, ?_, ?_⟩
    · unfold generate_nominal_plot
      rw [if_pos (by simp only [List.length_map]; omega)]
      rw [if_neg]
      intro hone
      rw [dedup_length_le_one_iff] at hone
      obtain ⟨p, hp, q, hq, hpq⟩ := hdiff
      exact hpq (hone p.2 (List.mem_map_of_mem Prod.snd hp)
        q.2 (List.mem_map_of_mem Prod.snd hq))
    · rw [List.length_take, hlen]
      omega
    · exact hsort.sublist (List.take_sublist _ _)
    · intro r hr
      have hr2 : r ∈ List.insertionSort recGE
          ((countValues cells).map fun p => (⟨p.1, p.2⟩ : PlotRecord)) :=
        (List.take_sublist _ _).subset hr
      have hr3 := hperm.subset hr2
      obtain ⟨p, hp, hpr⟩ := List.mem_map.mp hr3
      rw [← hpr]
      exact hp
    · intro p hp hnot r hr
      have hmem : (⟨p.1, p.2⟩ : PlotRecord) ∈ List.insertionSort recGE
          ((countValues cells).map fun q => (⟨q.1, q.2⟩ : PlotRecord)) :=
        hperm.symm.subset (List.mem_map_of_mem _ hp)
      rw [← List.take_append_drop MAX_NOMINAL_BINS (List.insertionSort recGE
        ((countValues cells).map fun q => (⟨q.1, q.2⟩ : PlotRecord)))] at hmem
      have hsplit : List.Pairwise recGE
          (List.take MAX_NOMINAL_BINS (List.insertionSort recGE
            ((countValues cells).map fun q => (⟨q.1, q.2⟩ : PlotRecord))) ++
          List.drop MAX_NOMINAL_BINS (List.insertionSort recGE
            ((countValues cells).map fun q => (⟨q.1, q.2⟩ : PlotRecord)))) := by
        rw [List.take_append_drop]
        exact hsort
      have hpaired := List.pairwise_append.mp hsplit
      rcases List.mem_append.mp hmem with hin | hin
      · exact absurd hin hnot
      · exact hpaired.2.2 r hr (⟨p.1, p.2⟩ : PlotRecord) hin

/-- Witness for C7 at a concrete three-cell column with two distinct
values: the first case applies and a summary is produced. -/
theorem nominal_plot_cases_witness :
    (generate_nominal_plot ["a", "b", "a"]).isSome = true := by
  obtain ⟨l, hl, h2⟩ := (nominal_plot_cases ["a", "b", "a"]).1 (by decide)
  rw [hl]
  rfl

/-- Helper: takeWhile only inspects members of the list, so predicates
that agree on the members produce the same prefix. -/
theorem takeWhile_congr_mem {p q : α → Bool} :
    ∀ (l : List α), (∀ x ∈ l, p x = q x) →
      l.takeWhile p = l.takeWhile q ∧ l.dropWhile p = l.dropWhile q := by
  intro l
  induction l with
  | nil => exact fun _ => ⟨rfl, rfl⟩
  | cons x xs ih =>
      intro h
      have hx := h x (List.mem_cons_self x xs)
      obtain ⟨ih1, ih2⟩ := ih fun y hy => h y (List.mem_cons_of_mem x hy)
      constructor
      · rw [List.takeWhile_cons, List.takeWhile_cons, hx, ih1]
      · rw [List.dropWhile_cons, List.dropWhile_cons, hx, ih2]

/-- Helper: on an enumerated stream, taking while the index stays below a
threshold t keeps exactly the first t - b elements. -/
theorem enumFrom_takeWhile_lt (t : ℕ) :
    ∀ (xs : List α) (b : ℕ),
      (List.enumFrom b xs).takeWhile (fun p => p.1 < t) =
        List.enumFrom b (xs.take (t - b)) := by
  intro xs
  induction xs with
  | nil => intro b; simp
  | cons x xs ih =>
      intro b
      rw [List.enumFrom_cons, List.takeWhile_cons]
      by_cases hb : b < t
      · rw [if_pos (by simpa using hb), ih (b + 1)]
        have ht : t - b = (t - (b + 1)) + 1 := by omega
        rw [ht, List.take_succ_cons, List.enumFrom_cons]
      · rw [if_neg (by simpa using hb)]
        have ht : t - b = 0 := by omega
        rw [ht, List.take_zero]
        rfl

/-- Helper: on an enumerated stream starting at b <= t, dropping while
the index stays below t leaves the elements enumerated from t onward. -/
theorem enumFrom_dropWhile_lt (t : ℕ) :
    ∀ (xs : List α) (b : ℕ), b ≤ t →
      (List.enumFrom b xs).dropWhile (fun p => p.1 < t) =
        List.enumFrom t (xs.drop (t - b)) := by
  intro xs
  induction xs with
  | nil => intro b _; simp
  | cons x xs ih =>
      intro b hbt
      rw [List.enumFrom_cons, List.dropWhile_cons]
      by_cases hb : b < t
      · rw [if_pos (by simpa using hb), ih (b + 1) hb]
        have ht : t - b = (t - (b + 1)) + 1 := by omega
        rw [ht, List.drop_succ_cons]
      · have hbt2 : b = t := by omega
        rw [if_neg (by simpa using hb), hbt2]
        have ht : t - t = 0 := by omega
        rw [ht, List.drop_zero, List.enumFrom_cons]

/-- Helper: the grouping of the enumerated row stream by page coincides
with the explicit chunk decomposition: page k holds the rows enumerated
from k * ps on, ps at a time. -/
theorem groupByKey_enumFrom_eq_chunkPages (ps : ℕ) (hps : 0 < ps) :
    ∀ (k : ℕ) (rows : List α),
      groupByKey (fun p => rowPage ps p.1) (List.enumFrom (k * ps) rows) =
        chunkPages ps k rows := by
  intro k rows
  induction k, rows using chunkPages.induct ps with
  | case1 k => simp [groupByKey, chunkPages]
  | case2 k x xs ih =>
      rw [List.enumFrom_cons, groupByKey]
      have hk : rowPage ps (k * ps, x).1 = k := by
        simp only [rowPage]
        exact Nat.mul_div_cancel k hps
      have hcong := takeWhile_congr_mem (List.enumFrom (k * ps + 1) xs)
        (p := fun y : ℕ × α => decide (rowPage ps y.1 = rowPage ps (k * ps, x).1))
        (q := fun y : ℕ × α => decide (y.1 < (k + 1) * ps))
        (by
          intro y hy
          have hyb := (List.mem_enumFrom hy).1
          rw [decide_eq_decide]
          rw [hk]
          simp only [rowPage]
          constructor
          · intro hdiv
            have : y.1 / ps < k + 1 := by omega
            exact (Nat.div_lt_iff_lt_mul hps).mp this
          · intro hlt
            have hle : k * ps ≤ y.1 := by omega
            exact Nat.div_eq_of_lt_le hle (by
              have : (k + 1) * ps = Nat.succ k * ps := rfl
              omega))
      rw [hcong.1, hcong.2]
      rw [enumFrom_takeWhile_lt ((k + 1) * ps) xs (k * ps + 1)]
      rw [enumFrom_dropWhile_lt ((k + 1) * ps) xs (k * ps + 1)
        (by
          have : (k + 1) * ps = k * ps + ps := by ring
          omega)]
      have h1 : (k + 1) * ps - (k * ps + 1) = ps - 1 := by
        have : (k + 1) * ps = k * ps + ps := by ring
        omega
      rw [h1]
      rw [ih]
      rw [chunkPages]
      have h2 : (x :: xs).take ps = x :: xs.take (ps - 1) :=
        List.take_cons hps
      rw [h2, List.enumFrom_cons, hk]

/-- Helper: for positive ps, dropping ps - 1 elements of the tail drops
ps elements of the whole list. -/
theorem drop_pred_cons (hps : 0 < ps) (x : α) (xs : List α) :
    xs.drop (ps - 1) = (x :: xs).drop ps := by
  obtain ⟨m, rfl⟩ : ∃ m, ps = m + 1 := ⟨ps - 1, by omega⟩
  simp

/-- Helper: concatenating the pages in order restores the enumerated row
stream: every row appears exactly once, in input order. -/
theorem chunkPages_join (ps : ℕ) (hps : 0 < ps) :
    ∀ (k : ℕ) (rows : List α),
      ((chunkPages ps k rows).map Prod.snd).flatten =
        List.enumFrom (k * ps) rows := by
  intro k rows
  induction k, rows using chunkPages.induct ps with
  | case1 k => simp [chunkPages]
  | case2 k x xs ih =>
      rw [chunkPages]
      simp only [List.map_cons, List.flatten_cons]
      rw [ih, drop_pred_cons hps x xs]
      by_cases hlen : ps ≤ (x :: xs).length
      · conv =>
          rhs
          rw [← List.take_append_drop ps (x :: xs)]
        rw [List.enumFrom_append]
        have htl : ((x :: xs).take ps).length = ps :=
          List.length_take_of_le hlen
        rw [htl]
        have hkp : k * ps + ps = (k + 1) * ps := by ring
        rw [hkp]
      · have hdr : (x :: xs).drop ps = [] := by
          apply List.drop_eq_nil_of_le
          omega
        have htk : (x :: xs).take ps = x :: xs := by
          apply List.take_of_length_le
          omega
        rw [hdr, htk]
        simp

/-- Helper: the page keys are consecutive, starting at k and covering
exactly ceil(length / ps) pages. -/
theorem chunkPages_keys (ps : ℕ) (hps : 0 < ps) :
    ∀ (k : ℕ) (rows : List α),
      (chunkPages ps k rows).map Prod.fst =
        List.range' k (numPages rows.length ps) := by
  intro k rows
  induction k, rows using chunkPages.induct ps with
  | case1 k =>
      simp only [List.length_nil]
      have h0 : numPages 0 ps = 0 := by
        unfold numPages
        exact Nat.div_eq_of_lt (by omega)
      rw [h0]
      simp [chunkPages]
  | case2 k x xs ih =>
      rw [chunkPages]
      simp only [List.map_cons]
      rw [ih]
      have hsucc :
          numPages (x :: xs).length ps =
            numPages (xs.drop (ps - 1)).length ps + 1 := by
        rw [List.length_drop, List.length_cons]
        unfold numPages
        by_cases hle : xs.length + 1 ≤ ps
        · have h1 : xs.length - (ps - 1) = 0 := by omega
          rw [h1]
          have h2 : (0 + ps - 1) / ps = 0 := Nat.div_eq_of_lt (by omega)
          rw [h2]
          exact Nat.div_eq_of_lt_le (by omega) (by
            have hmul : Nat.succ 0 * ps = ps := by ring
            omega)
        · have h1 : xs.length + 1 + ps - 1 =
              (xs.length - (ps - 1) + ps - 1) + ps := by omega
          rw [h1, Nat.add_div_right _ hps]
      rw [hsucc, List.range'_succ]

/-- Helper: every row of every page sits on the page given by floor
division of its ordinal by the page size. -/
theorem chunkPages_pageOf (ps : ℕ) (hps : 0 < ps) :
    ∀ (k : ℕ) (rows : List α),
      ∀ pr ∈ chunkPages ps k rows, ∀ q ∈ pr.2, q.1 / ps = pr.1 := by
  intro k rows
  induction k, rows using chunkPages.induct ps with
  | case1 k =>
      intro pr hpr
      simp [chunkPages] at hpr
  | case2 k x xs ih =>
      intro pr hpr q hq
      rw [chunkPages] at hpr
      rcases List.mem_cons.mp hpr with rfl | htl
      · have hq2 : q ∈ List.enumFrom (k * ps) ((x :: xs).take ps) := hq
        have hb := List.mem_enumFrom hq2
        have hlen : ((x :: xs).take ps).length ≤ ps := by
          rw [List.length_take]
          omega
        show q.1 / ps = k
        apply Nat.div_eq_of_lt_le
        · omega
        · have hmul : (k + 1) * ps = k * ps + ps := by ring
          omega
      · exact ih pr htl q hq

/-- Helper: page j (counting from the first produced page) holds
min ps (length - j * ps) rows: ps rows on every page but possibly the
last. -/
theorem chunkPages_sizes (ps : ℕ) (hps : 0 < ps) :
    ∀ (k : ℕ) (rows : List α) (j : ℕ) (pr : ℕ × List (ℕ × α)),
      (chunkPages ps k rows).get? j = some pr →
        pr.2.length = min ps (rows.length - j * ps) := by
  intro k rows
  induction k, rows using chunkPages.induct ps with
  | case1 k =>
      intro j pr h
      rw [chunkPages] at h
      simp at h
  | case2 k x xs ih =>
      intro j pr h
      rw [chunkPages] at h
      cases j with
      | zero =>
          simp only [List.get?_cons_zero] at h
          cases h
          simp only [List.enumFrom_length, List.length_take]
          simp only [List.length_cons]
          omega
      | succ j =>
          simp only [List.get?_cons_succ] at h
          have hrec := ih j pr h
          rw [List.length_drop] at hrec
          have hmul : (j + 1) * ps = j * ps + ps := by ring
          rw [hrec, List.length_cons, hmul]
          omega

/-- Helper: the number of rows on the last of the numPages pages is the
remainder R mod ps, or a full ps when ps divides R. -/
theorem numPages_last_size (ps R : ℕ) (hps : 0 < ps) (hR : 0 < R) :
    min ps (R - (numPages R ps - 1) * ps) =
      if R % ps = 0 then ps else R % ps := by
  have hdm : R % ps + R / ps * ps = R := by
    have h := Nat.mod_add_div R ps
    rw [Nat.mul_comm] at h
    exact h
  have hrlt : R % ps < ps := Nat.mod_lt R hps
  have hnp : numPages R ps = if R % ps = 0 then R / ps else R / ps + 1 := by
    unfold numPages
    by_cases hr : R % ps = 0
    · rw [if_pos hr]
      have h1 : R + ps - 1 = (ps - 1) + R / ps * ps := by omega
      rw [h1, Nat.add_mul_div_right _ _ hps, Nat.div_eq_of_lt (by omega)]
      omega
    · rw [if_neg hr]
      have hexp : (R / ps + 1) * ps = R / ps * ps + ps := by ring
      have h1 : R + ps - 1 = (R % ps - 1) + (R / ps + 1) * ps := by omega
      rw [h1, Nat.add_mul_div_right _ _ hps, Nat.div_eq_of_lt (by omega)]
      omega
  by_cases hr : R % ps = 0
  · rw [if_pos hr, hnp, if_pos hr]
    have hq : 1 ≤ R / ps := by
      rcases Nat.eq_zero_or_pos (R / ps) with hq0 | hqpos
      · exfalso
        rw [hq0, Nat.zero_mul] at hdm
        omega
      · exact hqpos
    have h2 : (R / ps - 1) * ps + ps = R / ps * ps := by
      have h3 : R / ps - 1 + 1 = R / ps := by omega
      calc (R / ps - 1) * ps + ps = (R / ps - 1 + 1) * ps := by ring
        _ = R / ps * ps := by rw [h3]
    have h4 : R - (R / ps - 1) * ps = ps := by omega
    rw [h4, Nat.min_self]
  · rw [if_neg hr, hnp, if_neg hr]
    have h2 : R / ps + 1 - 1 = R / ps := Nat.succ_sub_one (R / ps)
    rw [h2]
    have h4 : R - R / ps * ps = R % ps := Nat.sub_eq_of_eq_add hdm.symm
    rw [h4]
    exact Nat.min_eq_right (Nat.le_of_lt hrlt)

/-- C8: the page grouping of render_tables.  Concatenating the pages in
order restores the enumerated row stream (every row on exactly one page,
input order preserved); the page keys are exactly 0, 1, ...,
ceil(R / page_size) - 1 in that order; every row ordinal i sits on page
floor(i / page_size); page j holds min page_size (R - j * page_size)
rows, so every page but the last holds page_size rows; and the last page
holds R mod page_size rows, or page_size when page_size divides R. -/
theorem render_tables_paging (ps : ℕ) (hps : 0 < ps) (rows : List α) :
    ((render_tables_pages ps rows).map Prod.snd).flatten = rows.enum ∧
    (render_tables_pages ps rows).map Prod.fst =
      List.range (numPages rows.length ps) ∧
    (∀ pr ∈ render_tables_pages ps rows, ∀ q ∈ pr.2, q.1 / ps = pr.1) ∧
    (∀ (j : ℕ) (pr : ℕ × List (ℕ × α)),
      (render_tables_pages ps rows).get? j = some pr →
        pr.2.length = min ps (rows.length - j * ps)) ∧
    (0 < rows.length →
      ((render_tables_pages ps rows).getLast?).map (fun pr => pr.2.length) =
        some (if rows.length % ps = 0 then ps else rows.length % ps)) := by
  have hchar : render_tables_pages ps rows = chunkPages ps 0 rows := by
    unfold render_tables_pages
    have h := groupByKey_enumFrom_eq_chunkPages ps hps 0 rows
    rw [Nat.zero_mul] at h
    exact h
  have hlen2 : (chunkPages ps 0 rows).length = numPages rows.length ps := by
    have h := congrArg List.length (chunkPages_keys ps hps 0 rows)
    simpa using h
  refine ⟨?_, ?_, ?_, ?_, ?_⟩
  · rw [hchar]
    have h := chunkPages_join ps hps 0 rows
    rw [Nat.zero_mul] at h
    exact h
  · rw [hchar, chunkPages_keys ps hps 0 rows, List.range_eq_range']
  · rw [hchar]
    exact chunkPages_pageOf ps hps 0 rows
  · rw [hchar]
    exact chunkPages_sizes ps hps 0 rows
  · intro hR
    rw [hchar]
    have hnum1 : 1 ≤ numPages rows.length ps := by
      unfold numPages
      rw [Nat.one_le_div_iff hps]
      omega
    have hlt : (chunkPages ps 0 rows).length - 1 <
        (chunkPages ps 0 rows).length := by omega
    rw [List.getLast?_eq_get?, List.get?_eq_get hlt]
    have hsz := chunkPages_sizes ps hps 0 rows
      ((chunkPages ps 0 rows).length - 1)
      ((chunkPages ps 0 rows).get ⟨(chunkPages ps 0 rows).length - 1, hlt⟩)
      (List.get?_eq_get hlt)
    simp only [Option.map_some']
    rw [hsz, hlen2]
    rw [numPages_last_size ps rows.length hps hR]

/-- Witness for C8 at page size 2 over three rows: two pages, numbered 0
and 1 in order. -/
theorem render_tables_paging_witness :
    (render_tables_pages 2 [10, 20, 30]).map Prod.fst =
      List.range (numPages 3 2) :=
  (render_tables_paging 2 (by norm_num) [10, 20, 30]).2.1

/-- C9: output directory creation is exclusive: when the table directory
or its plots subdirectory already exists, the render of that table
returns an error instead of overwriting. -/
theorem render_table_dirs_exclusive (fs : List FsPath) (root : FsPath)
    (name : String)
    (h : root ++ [name] ∈ fs ∨ root ++ [name, "plots"] ∈ fs) :
    render_table_dirs fs root name = Except.error () := by
  by_cases h1 : root ++ [name] ∈ fs
  · simp only [render_table_dirs, createDir, if_pos h1]
  · rcases h with h2 | h2
    · exact absurd h2 h1
    · simp only [render_table_dirs, createDir, render_plots_dirs, if_neg h1]
      have happ : root ++ [name] ++ ["plots"] = root ++ [name, "plots"] := by
        simp
      rw [happ, if_pos (List.mem_cons_of_mem _ h2)]

/-- Witness for C9: with the table directory already present under the
render root, the table render errors out. -/
theorem render_table_dirs_exclusive_witness :
    render_table_dirs [["out", "t1"]] ["out"] "t1" = Except.error () :=
  render_table_dirs_exclusive [["out", "t1"]] ["out"] "t1" (Or.inl (by simp))

/-- C10: render_index_file requires a non-empty TablesSpec: on an empty
spec the unwrap of the first key panics instead of returning an error
value, and on a non-empty spec it renders the index page referencing the
first table name in declaration order. -/
theorem render_index_file_spec (specs : TablesSpec) :
    (specs.tables = [] → render_index_file specs = none) ∧
    (∀ first rest, specs.tables = first :: rest →
      render_index_file specs = some (indexTemplate first.1)) := by
  constructor
  · intro h
    unfold render_index_file
    rw [h]
    rfl
  · intro first rest h
    unfold render_index_file
    rw [h]
    rfl

/-- Witness for C10: the empty spec makes render_index_file panic, and a
one-table spec renders the index referencing that table. -/
theorem render_index_file_spec_witness :
    render_index_file ⟨[]⟩ = none ∧
    render_index_file ⟨[("t1", ⟨"t1.csv", Char.ofNat 44, 2⟩)]⟩ =
      some (indexTemplate "t1") :=
  ⟨(render_index_file_spec ⟨[]⟩).1 rfl,
    (render_index_file_spec ⟨[("t1", ⟨"t1.csv", Char.ofNat 44, 2⟩)]⟩).2
      ("t1", ⟨"t1.csv", Char.ofNat 44, 2⟩) [] rfl⟩

end Datavzrd
